import Mathlib

/-!
Shallow embedding of `api/datastore/sql/migrations/migrations.go`.

The Go file implements a schema-migration engine on top of the goose
library: a registry of versioned migrations is sorted and doubly linked
(`sortAndConnectMigrations`), a legacy single-row `schema_migrations`
table is consulted to bridge databases created under an older
version-tracking scheme (`checkOldMigrationTableVersionIfExists`,
`checkOldMigration`), and two entry points apply outstanding migrations
(`ApplyMigrations`) or reverse everything down to the baseline
(`DownAll`).

The goose dialect layer and the live database are external
collaborators: they enter the embedding as an explicit environment —
an abstract database-state type `σ`, a reported goose version, the
legacy row contents, and per-migration forward/reverse actions that
transform the state or fail.  Every loop of the Go code becomes a
structurally recursive function (the open-ended `DownAll` loop takes
explicit fuel), and every entry point additionally returns the trace of
migration versions whose forward/reverse action it invoked, in
invocation order, so that invocation claims are expressible.
-/

namespace FnMigrations

/-- goose `Migration` record as used by this file: a version plus the
doubly-linked `Previous`/`Next` neighbour versions populated by
`sortAndConnectMigrations`.  The forward (`Up`) and reverse (`Down`)
actions live in the environment, keyed by the record. -/
structure Migration where
  Version : Int
  Previous : Int
  Next : Int
deriving DecidableEq

/-- Errors surfaced by database calls and migration actions.  `errNoRows`
models `sql.ErrNoRows`; `dbErr` models any other driver/connectivity
error; `upFail`/`downFail` model errors produced by a failing forward or
reverse migration action (tagged with the version that produced them). -/
inductive Err where
  | errNoRows : Err
  | dbErr : Nat → Err
  | upFail : Int → Err
  | downFail : Int → Err
deriving DecidableEq

/-- Error component of `goose.GetDBVersion`: either `goose.ErrNoNextVersion`
(fresh database, downgraded to normal control flow by `ApplyMigrations`)
or any other error (propagated). -/
inductive GooseErr where
  | noNextVersion : GooseErr
  | other : Err → GooseErr
deriving DecidableEq

/-- The ordering of `goose.Migrations`: ascending by `Version`. -/
def byVersion (a b : Migration) : Prop := a.Version ≤ b.Version

instance : DecidableRel byVersion := fun a b => Int.decLe a.Version b.Version

instance : IsTotal Migration byVersion := ⟨fun a b => Int.le_total a.Version b.Version⟩

instance : IsTrans Migration byVersion := ⟨fun _ _ _ hab hbc => le_trans hab hbc⟩

/-- `sort.Sort(migrations)` with `goose.Migrations`' ordering, which
compares `Version` ascending (distinct versions are a precondition of
the Go code: equal versions make goose's `Less` panic; on distinct
versions every correct sort produces the same, unique ascending
sequence, realised here by insertion sort). -/
def sortMigrations (ms : List Migration) : List Migration :=
  ms.insertionSort byVersion

/-- The linking loop of `sortAndConnectMigrations`: element `i` receives
`Previous :=` version of element `i-1` (or the `prev` parameter, `-1` at
the top call, for the first element) and `Next :=` version of element
`i+1`; the last element's `Next` is left untouched, exactly as in the Go
loop which only assigns `migrations[i-1].Next`. -/
def connectAux (prev : Int) : List Migration → List Migration
  | [] => []
  | m :: rest =>
    match rest with
    | [] => [{ m with Previous := prev }]
    | m2 :: _ => { m with Previous := prev, Next := m2.Version } :: connectAux m.Version rest

/-- `sortAndConnectMigrations` (the file's copy of goose's
sortAndConnectMigrations): sort ascending by version, then populate
`Previous`/`Next` for each record. -/
def sortAndConnectMigrations (ms : List Migration) : List Migration :=
  connectAux (-1) (sortMigrations ms)

/-- The legacy `schema_migrations` single-row table together with the
outcome of querying it: `row` is the `(version, dirty)` pair returned by
`SELECT version, dirty ... LIMIT 1` (`none` when the table is absent or
empty, in which case `Scan` yields `sql.ErrNoRows`), and `queryErr` is
any other error the query/scan produces (e.g. connectivity). -/
structure LegacyDB where
  row : Option (Int × Bool)
  queryErr : Option Err
deriving DecidableEq

/-- Semantics of `q.Scan(&version, &dirty)` on the legacy row: on any
error the scanned variables keep their zero values `(0, false)` and the
error is returned; with a row present the row is written and no error is
returned. -/
def scanLegacyRow (db : LegacyDB) : Int × Bool × Option Err :=
  match db.queryErr with
  | some e => (0, false, some e)
  | none =>
    match db.row with
    | none => (0, false, some .errNoRows)
    | some (v, d) => (v, d, none)

/-- `checkOldMigrationTableVersionIfExists`.  Faithful to the source: the
named return `err` is never assigned — the result of `q.Scan` is
discarded — so the `sql.ErrNoRows` / error branches below the scan are
dead and the function always returns a nil error together with whatever
the scan left in `version`/`dirty`. -/
def checkOldMigrationTableVersionIfExists (db : LegacyDB) : Int × Bool × Option Err :=
  ((scanLegacyRow db).1, (scanLegacyRow db).2.1, none)

/-- Result of `checkOldMigration`: `fatal` models `log.Fatal("database
corrupted")` (terminates the process), `err` an early error return,
`sliceOOB` the Go panic of `migrationsSorted[current:]` when `current`
exceeds the slice length, and `ok current left` the normal return. -/
inductive CheckRes where
  | fatal : CheckRes
  | err : Err → CheckRes
  | sliceOOB : CheckRes
  | ok : Int → List Migration → CheckRes
deriving DecidableEq

/-- `checkOldMigration`: sort-and-connect the registry, read the legacy
version row, halt fatally on `dirty`, and on a positive legacy version
`current` return `(current, migrationsSorted[current:])` — note the Go
code slices the sorted registry at *index* `current`, not at the first
version greater than `current`.  Otherwise return the sentinel `-1` and
the full sorted registry. -/
def checkOldMigration (registry : List Migration) (db : LegacyDB) : CheckRes :=
  let migrationsSorted := sortAndConnectMigrations registry
  match checkOldMigrationTableVersionIfExists db with
  | (current, dirty, e) =>
    match e with
    | some e => .err e
    | none =>
      if dirty then .fatal
      else if 0 < current then
        if current ≤ (migrationsSorted.length : Int) then
          .ok current (migrationsSorted.drop current.toNat)
        else .sliceOOB
      else .ok (-1) migrationsSorted

/-- The `for _, m := range left { m.Up(db) }` loop of `ApplyMigrations`:
threads the database state through each forward action, stops at the
first failing action and returns its error, and records the versions
whose `Up` was invoked, in invocation order. -/
def upLoop {σ : Type} (up : Migration → σ → Except Err σ) :
    List Migration → σ → Option Err × σ × List Int
  | [], s => (none, s, [])
  | m :: rest, s =>
    match up m s with
    | .error e => (some e, s, [m.Version])
    | .ok s2 =>
      match upLoop up rest s2 with
      | (r, s3, tr) => (r, s3, m.Version :: tr)

/-- Environment of one `ApplyMigrations` run: the outcome of the
bootstrap `CREATE TABLE IF NOT EXISTS` loop (first failing statement's
error, if any), the pair returned by `goose.GetDBVersion`, the legacy
table, the forward actions, and the initial database state. -/
structure ApplyEnv (σ : Type) where
  bootstrapErr : Option Err
  gooseVersion : Int
  gooseErr : Option GooseErr
  legacy : LegacyDB
  up : Migration → σ → Except Err σ
  s0 : σ

/-- Result of `ApplyMigrations`: normal return (`ok` with final state or
`err`), `fatal` from `checkOldMigration`'s dirty halt, or the slice
panic propagated from `checkOldMigration`. -/
inductive ApplyRes (σ : Type) where
  | ok : σ → ApplyRes σ
  | err : Err → ApplyRes σ
  | fatal : ApplyRes σ
  | sliceOOB : ApplyRes σ
deriving DecidableEq

/-- `ApplyMigrations`: bootstrap the baseline tables, read the goose
version (propagating any error other than `goose.ErrNoNextVersion`),
resolve the legacy-derived current version and outstanding list via
`checkOldMigration`, and run the forward actions only when the goose
version is strictly behind the legacy-derived version.  Returns the
result together with the trace of versions whose forward action was
invoked. -/
def ApplyMigrations {σ : Type} (registry : List Migration) (env : ApplyEnv σ) :
    ApplyRes σ × List Int :=
  match env.bootstrapErr with
  | some e => (.err e, [])
  | none =>
    match env.gooseErr with
    | some (.other e) => (.err e, [])
    | _ =>
      match checkOldMigration registry env.legacy with
      | .err e => (.err e, [])
      | .fatal => (.fatal, [])
      | .sliceOOB => (.sliceOOB, [])
      | .ok migrateCurrent left =>
        if env.gooseVersion < migrateCurrent then
          match upLoop env.up left env.s0 with
          | (some e, _, tr) => (.err e, tr)
          | (none, s2, tr) => (.ok s2, tr)
        else (.ok env.s0, [])

/-- `goose.Migrations.Current`: the first migration whose version equals
the requested one, or nothing (goose's `ErrNoCurrentVersion`, which
`DownAll` downgrades to "no migrations to run"). -/
def Current (ms : List Migration) (v : Int) : Option Migration :=
  ms.find? (fun m => decide (m.Version = v))

/-- Environment of one `DownAll` run: `goose.GetDBVersion` as a function
of the database state, and the per-migration reverse actions. -/
structure DownEnv (σ : Type) where
  getVer : σ → Except Err Int
  down : Migration → σ → Except Err σ

/-- Result of the `DownAll` loop: normal success (`ok` with final
state), a propagated error, or fuel exhaustion of the embedding (the Go
loop is open-ended; `fuelOut` marks runs the given fuel cannot finish). -/
inductive DownRes (σ : Type) where
  | ok : σ → DownRes σ
  | err : Err → DownRes σ
  | fuelOut : DownRes σ
deriving DecidableEq

/-- The open-ended `for` loop of `DownAll`: read the current version
(propagating errors), stop successfully when no registry migration
matches it or when the matched migration's version is at most 1, and
otherwise invoke that migration's reverse action and continue.  Returns
the result together with the trace of versions whose reverse action was
invoked, in invocation order. -/
def downLoop {σ : Type} (env : DownEnv σ) (ms : List Migration) :
    Nat → σ → DownRes σ × List Int
  | 0, _ => (.fuelOut, [])
  | fuel + 1, s =>
    match env.getVer s with
    | .error e => (.err e, [])
    | .ok currentVersion =>
      match Current ms currentVersion with
      | none => (.ok s, [])
      | some current =>
        if current.Version ≤ 1 then (.ok s, [])
        else
          match env.down current s with
          | .error e => (.err e, [current.Version])
          | .ok s2 =>
            match downLoop env ms fuel s2 with
            | (r, tr) => (r, current.Version :: tr)

/-- `DownAll`: sort-and-connect the registry, then run the reversal
loop. -/
def DownAll {σ : Type} (registry : List Migration) (env : DownEnv σ)
    (fuel : Nat) (s : σ) : DownRes σ × List Int :=
  downLoop env (sortAndConnectMigrations registry) fuel s

/-- A bare migration record as a deployment would register it: only the
version is meaningful before linking. -/
def mig (v : Int) : Migration := ⟨v, 0, 0⟩

/-- Registry of five migrations versioned 1..5, as in the spec's legacy
bridge scenario. -/
def reg5 : List Migration := [mig 1, mig 2, mig 3, mig 4, mig 5]

/-- Registry of four migrations versioned 1..4. -/
def reg4 : List Migration := [mig 1, mig 2, mig 3, mig 4]

/-- Registry of three migrations versioned 1..3. -/
def reg3 : List Migration := [mig 1, mig 2, mig 3]

/-- Legacy bridge run: the legacy row reports `(2, non-dirty)`, goose
reports `ErrNoNextVersion` with version `-1`, every forward action
succeeds (counting invocations in a `Nat` state). -/
def envBridge : ApplyEnv Nat where
  bootstrapErr := none
  gooseVersion := -1
  gooseErr := some .noNextVersion
  legacy := ⟨some (2, false), none⟩
  up := fun _ s => .ok (s + 1)
  s0 := 0

/-- Partial-failure run: legacy row `(1, non-dirty)`, the forward action
of version 3 fails, every other forward action succeeds. -/
def envFail : ApplyEnv Nat where
  bootstrapErr := none
  gooseVersion := -1
  gooseErr := none
  legacy := ⟨some (1, false), none⟩
  up := fun m s => if m.Version = 3 then .error (.upFail 3) else .ok (s + 1)
  s0 := 0

/-- Run against a database whose legacy row is dirty. -/
def envDirty : ApplyEnv Nat where
  bootstrapErr := none
  gooseVersion := 0
  gooseErr := none
  legacy := ⟨some (1, true), none⟩
  up := fun _ s => .ok (s + 1)
  s0 := 0

/-- Run against a fresh database: no legacy row, goose reports
`ErrNoNextVersion`. -/
def envFresh : ApplyEnv Nat where
  bootstrapErr := none
  gooseVersion := 0
  gooseErr := some .noNextVersion
  legacy := ⟨none, none⟩
  up := fun _ s => .ok (s + 1)
  s0 := 0

/-- A concrete database state carrying both the legacy row and the
goose-recorded version, so that apply and rollback behaviour on the very
same database can be compared. -/
structure ExDB where
  legacy : LegacyDB
  ver : Int
deriving DecidableEq

/-- A database whose legacy row reports `(2, dirty)` while the goose
version is 2. -/
def dirtyDB : ExDB := ⟨⟨some (2, true), none⟩, 2⟩

/-- Rollback environment over `ExDB`: `GetDBVersion` reads the recorded
version, each reverse action decrements it and succeeds. -/
def exDownEnv : DownEnv ExDB where
  getVer := fun s => .ok s.ver
  down := fun _ s => .ok ⟨s.legacy, s.ver - 1⟩

/-- Rollback environment whose state is just the recorded version; each
reverse action decrements it. -/
def intDownEnv : DownEnv Int where
  getVer := fun s => .ok s
  down := fun _ s => .ok (s - 1)

/-- Number of registry records whose version lies in `(1, v]`: the
measure that bounds the iterations of the `DownAll` loop. -/
def cntLe (ms : List Migration) (v : Int) : Nat :=
  (ms.filter (fun m => decide (1 < m.Version ∧ m.Version ≤ v))).length

/-! ### Structure of the linking pass -/

lemma connectAux_cons_shape (p : Int) (x : Migration) (xs : List Migration) :
    ∃ y ys, connectAux p (x :: xs) = y :: ys ∧ y.Version = x.Version ∧ y.Previous = p := by
  cases xs with
  | nil => exact ⟨_, _, rfl, rfl, rfl⟩
  | cons b bs => exact ⟨_, _, rfl, rfl, rfl⟩

lemma connectAux_map_version (l : List Migration) :
    ∀ p, (connectAux p l).map (fun m => m.Version) = l.map (fun m => m.Version) := by
  induction l with
  | nil => intro p; rfl
  | cons m rest ih =>
    intro p
    cases rest with
    | nil => rfl
    | cons m2 rest2 =>
      simpa [connectAux] using ih m.Version

lemma connectAux_length (l : List Migration) (p : Int) :
    (connectAux p l).length = l.length := by
  have h := congrArg List.length (connectAux_map_version l p)
  simpa using h

lemma connectAux_chain (l : List Migration) :
    ∀ p, List.Chain' (fun a b => a.Next = b.Version ∧ b.Previous = a.Version)
      (connectAux p l) := by
  induction l with
  | nil => intro p; simp [connectAux]
  | cons m rest ih =>
    intro p
    cases rest with
    | nil => simp [connectAux]
    | cons m2 rest2 =>
      obtain ⟨y, ys, heq, hv, hp⟩ := connectAux_cons_shape m.Version m2 rest2
      have hchain : List.Chain' (fun a b => a.Next = b.Version ∧ b.Previous = a.Version)
          (y :: ys) := heq ▸ ih m.Version
      show List.Chain' _ ({ m with Previous := p, Next := m2.Version } :: connectAux m.Version (m2 :: rest2))
      rw [heq]
      exact List.Chain'.cons ⟨hv.symm, hp⟩ hchain

lemma connectAux_idem (l : List Migration) :
    ∀ p, connectAux p (connectAux p l) = connectAux p l := by
  induction l with
  | nil => intro p; rfl
  | cons m rest ih =>
    intro p
    cases rest with
    | nil => rfl
    | cons m2 rest2 =>
      obtain ⟨y, ys, heq, hv, _⟩ := connectAux_cons_shape m.Version m2 rest2
      show connectAux p ({ m with Previous := p, Next := m2.Version } :: connectAux m.Version (m2 :: rest2))
          = { m with Previous := p, Next := m2.Version } :: connectAux m.Version (m2 :: rest2)
      rw [heq]
      show { m with Previous := p, Next := y.Version } :: connectAux m.Version (y :: ys)
          = { m with Previous := p, Next := m2.Version } :: (y :: ys)
      rw [hv, ← heq, ih m.Version, heq]

/-! ### Order of the sorted, linked registry -/

lemma sortMigrations_sorted (ms : List Migration) :
    List.Sorted byVersion (sortMigrations ms) :=
  List.sorted_insertionSort byVersion ms

lemma sortMigrations_map_nodup (ms : List Migration)
    (hnd : (ms.map (fun m => m.Version)).Nodup) :
    ((sortMigrations ms).map (fun m => m.Version)).Nodup := by
  have hperm : (ms.map (fun m => m.Version)).Perm
      ((sortMigrations ms).map (fun m => m.Version)) :=
    ((List.perm_insertionSort byVersion ms).map (fun m => m.Version)).symm
  exact hperm.nodup hnd

lemma connectAux_head_prev (l : List Migration) (p : Int)
    (h : 0 < (connectAux p l).length) :
    ((connectAux p l).get ⟨0, h⟩).Previous = p := by
  cases l with
  | nil => simp [connectAux] at h
  | cons m rest =>
    cases rest with
    | nil => rfl
    | cons m2 rest2 => rfl

lemma sortAndConnect_sorted_le (ms : List Migration) :
    List.Sorted byVersion (sortAndConnectMigrations ms) := by
  have hs : List.Pairwise (fun a b : Migration => a.Version ≤ b.Version) (sortMigrations ms) :=
    sortMigrations_sorted ms
  have hmap : List.Pairwise (fun a b : Int => a ≤ b)
      ((sortMigrations ms).map (fun m => m.Version)) :=
    (List.pairwise_map (f := fun m : Migration => m.Version)).mpr hs
  rw [← connectAux_map_version (sortMigrations ms) (-1)] at hmap
  have hres : List.Pairwise (fun a b : Migration => a.Version ≤ b.Version)
      (connectAux (-1) (sortMigrations ms)) :=
    (List.pairwise_map (f := fun m : Migration => m.Version)).mp hmap
  exact hres

lemma sortAndConnect_pairwise_lt (ms : List Migration)
    (hnd : (ms.map (fun m => m.Version)).Nodup) :
    List.Pairwise (fun a b : Migration => a.Version < b.Version)
      (sortAndConnectMigrations ms) := by
  have hle : List.Pairwise (fun a b : Migration => a.Version ≤ b.Version)
      (sortAndConnectMigrations ms) := sortAndConnect_sorted_le ms
  have hne : List.Pairwise (fun a b : Int => a ≠ b)
      ((sortMigrations ms).map (fun m => m.Version)) :=
    sortMigrations_map_nodup ms hnd
  rw [← connectAux_map_version (sortMigrations ms) (-1)] at hne
  have hne2 : List.Pairwise (fun a b : Migration => a.Version ≠ b.Version)
      (connectAux (-1) (sortMigrations ms)) :=
    (List.pairwise_map (f := fun m : Migration => m.Version)).mp hne
  exact (hle.and hne2).imp (fun h => lt_of_le_of_ne h.1 h.2)

/-- Claim C5: for every set of migration records with distinct versions,
`sortAndConnectMigrations` produces a sequence ascending by version in
which `record[i].Next` equals `record[i+1].Version` and
`record[i+1].Previous` equals `record[i].Version` for every valid `i`,
and `record[0].Previous` equals `-1`. -/
theorem sortAndConnectMigrations_orders_and_links (ms : List Migration)
    (hnd : (ms.map (fun m => m.Version)).Nodup) :
    List.Pairwise (fun a b : Migration => a.Version < b.Version)
        (sortAndConnectMigrations ms) ∧
      (∀ i (h : i + 1 < (sortAndConnectMigrations ms).length),
        ((sortAndConnectMigrations ms).get ⟨i, Nat.lt_of_succ_lt h⟩).Next
            = ((sortAndConnectMigrations ms).get ⟨i + 1, h⟩).Version ∧
          ((sortAndConnectMigrations ms).get ⟨i + 1, h⟩).Previous
            = ((sortAndConnectMigrations ms).get ⟨i, Nat.lt_of_succ_lt h⟩).Version) ∧
      ∀ h0 : 0 < (sortAndConnectMigrations ms).length,
        ((sortAndConnectMigrations ms).get ⟨0, h0⟩).Previous = -1 := by
  refine ⟨sortAndConnect_pairwise_lt ms hnd, ?_, ?_⟩
  · intro i h
    have hchain := connectAux_chain (sortMigrations ms) (-1)
    simp only [sortAndConnectMigrations] at h ⊢
    have hget := List.chain'_iff_get.mp hchain i (by omega)
    exact ⟨hget.1, hget.2⟩
  · intro h0
    simp only [sortAndConnectMigrations] at h0 ⊢
    exact connectAux_head_prev (sortMigrations ms) (-1) h0

/-- Claim C8: `sortAndConnectMigrations` is idempotent — applying it a
second time to its own (already sorted, already linked) output changes
nothing: neither the sequence nor any record's `Previous`/`Next`. -/
theorem sortAndConnectMigrations_idem (ms : List Migration)
    (hnd : (ms.map (fun m => m.Version)).Nodup) :
    sortAndConnectMigrations (sortAndConnectMigrations ms)
      = sortAndConnectMigrations ms := by
  have hsorted : List.Sorted byVersion (sortAndConnectMigrations ms) :=
    sortAndConnect_sorted_le ms
  show connectAux (-1) (sortMigrations (sortAndConnectMigrations ms))
      = sortAndConnectMigrations ms
  rw [show sortMigrations (sortAndConnectMigrations ms) = sortAndConnectMigrations ms from
    hsorted.insertionSort_eq]
  exact connectAux_idem (sortMigrations ms) (-1)

/-- Concrete instance of C5 and C8 with distinct versions. -/
theorem sortAndConnectMigrations_idem_example :
    ([mig 3, mig 1, mig 2].map (fun m => m.Version)).Nodup ∧
      sortAndConnectMigrations (sortAndConnectMigrations [mig 3, mig 1, mig 2])
        = sortAndConnectMigrations [mig 3, mig 1, mig 2] :=
  ⟨by decide, sortAndConnectMigrations_idem [mig 3, mig 1, mig 2] (by decide)⟩

/-- Concrete instance of the ordering/linking claim: three unsorted
records come out sorted as versions `1, 2, 3` with the linkage
`(-1,2), (1,3), (2,_)`. -/
theorem sortAndConnectMigrations_orders_example :
    ([mig 3, mig 1, mig 2].map (fun m => m.Version)).Nodup ∧
      (List.Pairwise (fun a b : Migration => a.Version < b.Version)
          (sortAndConnectMigrations [mig 3, mig 1, mig 2]) ∧
        (∀ i (h : i + 1 < (sortAndConnectMigrations [mig 3, mig 1, mig 2]).length),
          ((sortAndConnectMigrations [mig 3, mig 1, mig 2]).get ⟨i, Nat.lt_of_succ_lt h⟩).Next
              = ((sortAndConnectMigrations [mig 3, mig 1, mig 2]).get ⟨i + 1, h⟩).Version ∧
            ((sortAndConnectMigrations [mig 3, mig 1, mig 2]).get ⟨i + 1, h⟩).Previous
              = ((sortAndConnectMigrations [mig 3, mig 1, mig 2]).get
                  ⟨i, Nat.lt_of_succ_lt h⟩).Version) ∧
        ∀ h0 : 0 < (sortAndConnectMigrations [mig 3, mig 1, mig 2]).length,
          ((sortAndConnectMigrations [mig 3, mig 1, mig 2]).get ⟨0, h0⟩).Previous = -1) :=
  ⟨by decide, sortAndConnectMigrations_orders_and_links [mig 3, mig 1, mig 2] (by decide)⟩

/-! ### The forward-application loop -/

lemma upLoop_ok_trace {σ : Type} (up : Migration → σ → Except Err σ) :
    ∀ (l : List Migration) (s : σ), (upLoop up l s).1 = none →
      (upLoop up l s).2.2 = l.map (fun m => m.Version) := by
  intro l
  induction l with
  | nil => intro s _; rfl
  | cons m rest ih =>
    intro s h
    cases hup : up m s with
    | error e => simp [upLoop, hup] at h
    | ok s2 =>
      rcases hres : upLoop up rest s2 with ⟨r, s3, tr⟩
      have hr : r = none := by simpa [upLoop, hup, hres] using h
      have htr := ih s2 (by rw [hres, hr])
      rw [hres] at htr
      simp [upLoop, hup, hres]
      simpa using htr

lemma upLoop_append_ok {σ : Type} (up : Migration → σ → Except Err σ) :
    ∀ (l1 l2 : List Migration) (s t : σ) (tr : List Int),
      upLoop up l1 s = (none, t, tr) →
      upLoop up (l1 ++ l2) s
        = ((upLoop up l2 t).1, (upLoop up l2 t).2.1, tr ++ (upLoop up l2 t).2.2) := by
  intro l1
  induction l1 with
  | nil =>
    intro l2 s t tr h
    have hs : s = t := congrArg (fun x => x.2.1) h
    have htr : tr = ([] : List Int) := (congrArg (fun x => x.2.2) h).symm
    subst hs
    subst htr
    rfl
  | cons m rest ih =>
    intro l2 s t tr h
    cases hup : up m s with
    | error e => simp [upLoop, hup] at h
    | ok s2 =>
      rcases hres : upLoop up rest s2 with ⟨r, s3, tr2⟩
      rw [List.cons_append]
      simp only [upLoop, hup, hres] at h
      have hr : r = none := congrArg (fun x => x.1) h
      have hs : s3 = t := congrArg (fun x => x.2.1) h
      have htr : m.Version :: tr2 = tr := congrArg (fun x => x.2.2) h
      have happ := ih l2 s2 t tr2 (by rw [hres, hr, hs])
      simp [upLoop, hup, happ, ← htr]

/-! ### Index-suffix versus version-suffix -/

lemma filter_lt_all (l : List Migration) (c : Int)
    (hv : ∀ i (h : i < l.length), c < (l.get ⟨i, h⟩).Version) :
    l.filter (fun m => decide (c < m.Version)) = l := by
  apply List.filter_eq_self.mpr
  intro a ha
  obtain ⟨⟨i, hlt⟩, rfl⟩ := List.mem_iff_get.mp ha
  simpa using hv i hlt

lemma drop_eq_filter_of_contig :
    ∀ (l : List Migration) (c : Int) (k : Nat),
      (∀ i (h : i < l.length), (l.get ⟨i, h⟩).Version = c + i + 1) →
      l.drop k = l.filter (fun m => decide (c + (k : Int) < m.Version)) := by
  intro l
  induction l with
  | nil => intro c k _; simp
  | cons m tl ih =>
    intro c k hv
    have hv0 : m.Version = c + 1 := by simpa using hv 0 (by simp)
    have hvt : ∀ i (h : i < tl.length), (tl.get ⟨i, h⟩).Version = (c + 1) + i + 1 := by
      intro i h
      have h2 := hv (i + 1) (Nat.succ_lt_succ h)
      simp only [List.get_cons_succ] at h2
      rw [h2]
      push_cast
      ring
    cases k with
    | zero =>
      have hall : ∀ i (h : i < (m :: tl).length), c < ((m :: tl).get ⟨i, h⟩).Version := by
        intro i h
        have hvi := hv i h
        rw [hvi]
        have : (0 : Int) ≤ (i : Int) := Int.natCast_nonneg i
        omega
      have hfil := filter_lt_all (m :: tl) c hall
      simpa using hfil.symm
    | succ k2 =>
      have hcast : c + ((k2 + 1 : Nat) : Int) = (c + 1) + (k2 : Int) := by push_cast; ring
      have hm : (decide ((c + 1) + (k2 : Int) < m.Version)) = false := by
        rw [hv0]
        simp only [decide_eq_false_iff_not]
        have : (0 : Int) ≤ (k2 : Int) := Int.natCast_nonneg k2
        omega
      simp only [List.drop_succ_cons, List.filter_cons, hcast, hm, Bool.false_eq_true,
        if_false]
      exact ih (c + 1) k2 hvt

/-- Claim C1 as stated is refuted by the code: `checkOldMigration` takes
the suffix of the sorted registry starting at *index* `current`, not at
the first version greater than `current`.  With a registry whose
versions are `2, 3` and a legacy version of `2`, the code reports no
outstanding migrations, while the claim demands exactly the version-3
migration. -/
theorem checkOldMigration_version_gap_counterexample :
    checkOldMigration [mig 2, mig 3] ⟨some (2, false), none⟩ = .ok 2 [] ∧
      ((sortAndConnectMigrations [mig 2, mig 3]).filter
          (fun m => decide ((2 : Int) < m.Version))).map (fun m => m.Version) = [3] ∧
      ([] : List Migration) ≠ (sortAndConnectMigrations [mig 2, mig 3]).filter
          (fun m => decide ((2 : Int) < m.Version)) := by
  exact ⟨by decide, by decide, by decide⟩

/-- Claim C1, amended: `checkOldMigration` drops the first `v` records
of the sorted registry.  When the sorted registry's versions are exactly
`1..n` (record `i` has version `i+1`) and the legacy row reports a
non-dirty version `v` with `0 < v ≤ n`, the outstanding migrations are
exactly those with version strictly greater than `v`, in ascending
order, and the records with version at most `v` are treated as already
applied. -/
theorem checkOldMigration_suffix_contiguous (reg : List Migration) (v : Nat) (db : LegacyDB)
    (hrow : db.row = some ((v : Int), false))
    (hq : db.queryErr = none)
    (hv : 0 < v)
    (hvlen : v ≤ (sortAndConnectMigrations reg).length)
    (hcontig : ∀ i (h : i < (sortAndConnectMigrations reg).length),
      ((sortAndConnectMigrations reg).get ⟨i, h⟩).Version = (i : Int) + 1) :
    checkOldMigration reg db
      = .ok (v : Int) ((sortAndConnectMigrations reg).filter
          (fun m => decide ((v : Int) < m.Version))) := by
  have hscan : checkOldMigrationTableVersionIfExists db = ((v : Int), false, none) := by
    simp [checkOldMigrationTableVersionIfExists, scanLegacyRow, hq, hrow]
  have hd := drop_eq_filter_of_contig (sortAndConnectMigrations reg) 0 v
    (by intro i h; simpa using hcontig i h)
  simp only [zero_add] at hd
  simp only [checkOldMigration, hscan]
  rw [if_neg (by simp)]
  rw [if_pos (by exact_mod_cast hv)]
  rw [if_pos (by exact_mod_cast hvlen)]
  rw [show ((v : Int)).toNat = v from Int.toNat_natCast v, hd]

/-- Concrete instance of the amended C1: legacy version 2 against the
five-migration registry leaves exactly versions 3, 4, 5 outstanding, in
ascending order. -/
theorem checkOldMigration_suffix_example :
    checkOldMigration reg5 ⟨some (2, false), none⟩
        = .ok 2 ((sortAndConnectMigrations reg5).filter
            (fun m => decide ((2 : Int) < m.Version))) ∧
      ((sortAndConnectMigrations reg5).filter
          (fun m => decide ((2 : Int) < m.Version))).map (fun m => m.Version) = [3, 4, 5] :=
  ⟨checkOldMigration_suffix_contiguous reg5 2 ⟨some (2, false), none⟩ rfl rfl
      (by decide) (by decide) (by decide),
    by decide⟩

/-- Claim C6 is contradicted by the code: the named return `err` of
`checkOldMigrationTableVersionIfExists` is never assigned (the result of
`q.Scan` is discarded), so the function returns a nil error for *every*
database outcome — a connectivity error raised while querying the legacy
table is swallowed, not propagated.  The second conjunct evaluates the
failing input: a query error `dbErr 3` yields `(0, false, nil)`. -/
theorem checkOldMigrationTable_swallows_errors :
    (∀ db : LegacyDB, (checkOldMigrationTableVersionIfExists db).2.2 = none) ∧
      checkOldMigrationTableVersionIfExists ⟨some (7, false), some (.dbErr 3)⟩
        = (0, false, none) :=
  ⟨fun _ => rfl, by decide⟩

/-- Claim C2: with bootstrap succeeded and no hard goose error, the
legacy-derived outstanding migrations are run exactly when the
goose-recorded version is strictly behind the legacy-derived version
`mc`; when it is not behind, zero forward actions are invoked.  (`hok`
restricts to runs whose forward actions all succeed; a mid-run failure
is claim C4's subject.) -/
theorem applyMigrations_only_when_behind {σ : Type} (reg : List Migration) (env : ApplyEnv σ)
    (mc : Int) (left : List Migration)
    (hb : env.bootstrapErr = none)
    (hg : env.gooseErr = none ∨ env.gooseErr = some .noNextVersion)
    (hchk : checkOldMigration reg env.legacy = .ok mc left)
    (hok : (upLoop env.up left env.s0).1 = none) :
    (ApplyMigrations reg env).2
      = if env.gooseVersion < mc then left.map (fun m => m.Version) else [] := by
  have htr := upLoop_ok_trace env.up left env.s0 hok
  rcases hres : upLoop env.up left env.s0 with ⟨r, s2, tr⟩
  have hr : r = none := by rw [hres] at hok; exact hok
  have htr2 : tr = left.map (fun m => m.Version) := by rw [hres] at htr; exact htr
  subst hr
  rcases hg with hg | hg
  · by_cases hlt : env.gooseVersion < mc
    · simp only [ApplyMigrations, hb, hg, hchk, hres, if_pos hlt]
      simpa using htr2
    · simp only [ApplyMigrations, hb, hg, hchk, hres, if_neg hlt]
  · by_cases hlt : env.gooseVersion < mc
    · simp only [ApplyMigrations, hb, hg, hchk, hres, if_pos hlt]
      simpa using htr2
    · simp only [ApplyMigrations, hb, hg, hchk, hres, if_neg hlt]

/-- Concrete instance of C2's behind branch: legacy version 2, goose
version -1, all forward actions succeed — versions 3, 4, 5 are invoked. -/
theorem applyMigrations_only_when_behind_example :
    (ApplyMigrations reg5 envBridge).2 = [3, 4, 5] :=
  applyMigrations_only_when_behind reg5 envBridge 2
    [⟨3, 2, 4⟩, ⟨4, 3, 5⟩, ⟨5, 4, 0⟩] rfl (Or.inr rfl) (by decide) (by decide)

/-- Claim C9: against a database with no legacy history (legacy version
at most 0, so the resolver reports the sentinel -1 with the full
registry outstanding), a goose-reported version of at least -1 means
zero forward actions are invoked, however many registry migrations have
never been applied. -/
theorem applyMigrations_fresh_no_actions {σ : Type} (reg : List Migration) (env : ApplyEnv σ)
    (hleg : (checkOldMigrationTableVersionIfExists env.legacy).1 ≤ 0)
    (hg : -1 ≤ env.gooseVersion) :
    (ApplyMigrations reg env).2 = [] := by
  rcases hscan : checkOldMigrationTableVersionIfExists env.legacy with ⟨cur, d, e⟩
  have he : e = none := by
    have h2 : (checkOldMigrationTableVersionIfExists env.legacy).2.2 = none := rfl
    rw [hscan] at h2
    exact h2
  have hcur : cur ≤ 0 := by rw [hscan] at hleg; exact hleg
  subst he
  have hchk : checkOldMigration reg env.legacy
      = if d then .fatal else .ok (-1) (sortAndConnectMigrations reg) := by
    simp only [checkOldMigration, hscan]
    cases d with
    | true => rfl
    | false =>
      simp only [Bool.false_eq_true, if_false]
      rw [if_neg (show ¬(0 < cur) by omega)]
  cases hbc : env.bootstrapErr with
  | some e2 => simp [ApplyMigrations, hbc]
  | none =>
    cases hge : env.gooseErr with
    | none =>
      simp only [ApplyMigrations, hbc, hge, hchk]
      cases d with
      | true => rfl
      | false =>
        simp only [Bool.false_eq_true, if_false]
        rw [if_neg (show ¬env.gooseVersion < -1 by omega)]
    | some ge =>
      cases ge with
      | noNextVersion =>
        simp only [ApplyMigrations, hbc, hge, hchk]
        cases d with
        | true => rfl
        | false =>
          simp only [Bool.false_eq_true, if_false]
          rw [if_neg (show ¬env.gooseVersion < -1 by omega)]
      | other e2 => simp [ApplyMigrations, hbc, hge]

/-- Concrete instance of C9: a fresh database with a three-migration
registry gets no forward action invoked. -/
theorem applyMigrations_fresh_example :
    (ApplyMigrations reg3 envFresh).2 = [] :=
  applyMigrations_fresh_no_actions reg3 envFresh (by decide) (by decide)

/-- Claim C3 as stated is refuted on the rollback path: on the very same
database whose legacy row reports `dirty = true` (so that the apply path
would halt fatally, first conjunct), `DownAll` never consults the legacy
row and happily invokes the version-2 reverse action (last conjunct). -/
theorem downAll_ignores_dirty_counterexample :
    checkOldMigrationTableVersionIfExists dirtyDB.legacy = (2, true, none) ∧
      checkOldMigration [mig 1, mig 2] dirtyDB.legacy = .fatal ∧
      (DownAll [mig 1, mig 2] exDownEnv 5 dirtyDB).2 = [2] :=
  ⟨by decide, by decide, by decide⟩

/-- Claim C3, amended: on a legacy row reporting `dirty = true`, the
apply entry point halts immediately (`log.Fatal`) without invoking any
forward action; the rollback entry point `DownAll`, however, never reads
the legacy row at all and may invoke reverse actions, and the modern
(goose) version scheme used here exposes no dirty flag to this code. -/
theorem applyMigrations_dirty_halts {σ : Type} (reg : List Migration) (env : ApplyEnv σ)
    (v : Int)
    (hrow : env.legacy.row = some (v, true))
    (hq : env.legacy.queryErr = none)
    (hb : env.bootstrapErr = none)
    (hg : env.gooseErr = none ∨ env.gooseErr = some .noNextVersion) :
    ApplyMigrations reg env = (.fatal, []) := by
  have hscan : checkOldMigrationTableVersionIfExists env.legacy = (v, true, none) := by
    simp [checkOldMigrationTableVersionIfExists, scanLegacyRow, hq, hrow]
  rcases hg with hg | hg <;>
    simp [ApplyMigrations, hb, hg, checkOldMigration, hscan]

/-- Concrete instance of the amended C3: dirty legacy row halts the
apply entry point with no forward action invoked. -/
theorem applyMigrations_dirty_halts_example :
    ApplyMigrations reg3 envDirty = (.fatal, []) :=
  applyMigrations_dirty_halts reg3 envDirty 1 rfl rfl rfl (Or.inl rfl)

/-- Claim C4: if the forward actions of the prefix `l1` of the
outstanding list succeed and the next migration `m`'s forward action
fails with `e`, then `ApplyMigrations` returns exactly `e`, the invoked
actions are exactly `l1`'s (each once, in list order — ascending, since
the outstanding list is a suffix of the sorted registry) followed by the
failing `m`, and no migration after `m` is ever invoked. -/
theorem applyMigrations_halts_on_failure {σ : Type} (reg : List Migration) (env : ApplyEnv σ)
    (mc : Int) (l1 : List Migration) (m : Migration) (l2 : List Migration)
    (t : σ) (tr : List Int) (e : Err)
    (hb : env.bootstrapErr = none)
    (hg : env.gooseErr = none ∨ env.gooseErr = some .noNextVersion)
    (hchk : checkOldMigration reg env.legacy = .ok mc (l1 ++ m :: l2))
    (hbehind : env.gooseVersion < mc)
    (hpre : upLoop env.up l1 env.s0 = (none, t, tr))
    (hfail : env.up m t = .error e) :
    ApplyMigrations reg env = (.err e, tr ++ [m.Version]) ∧
      tr = l1.map (fun x => x.Version) := by
  have htr : tr = l1.map (fun x => x.Version) := by
    have h := upLoop_ok_trace env.up l1 env.s0 (by rw [hpre])
    rw [hpre] at h
    exact h
  have hcons : upLoop env.up (m :: l2) t = (some e, t, [m.Version]) := by
    simp [upLoop, hfail]
  have happ := upLoop_append_ok env.up l1 (m :: l2) env.s0 t tr hpre
  rw [hcons] at happ
  refine ⟨?_, htr⟩
  rcases hg with hg | hg <;>
  · simp only [ApplyMigrations, hb, hg, hchk, if_pos hbehind, happ]

/-- Concrete instance of C4: registry 1..4, legacy version 1, version
3's forward action fails — version 2 runs once, version 3 is attempted
and its error returned, version 4 is never invoked. -/
theorem applyMigrations_halts_on_failure_example :
    ApplyMigrations reg4 envFail = (.err (.upFail 3), [2, 3]) :=
  (applyMigrations_halts_on_failure reg4 envFail 1
    [⟨2, 1, 3⟩] ⟨3, 2, 4⟩ [⟨4, 3, 0⟩] 1 [2] (.upFail 3)
    rfl (Or.inl rfl) (by decide) (by decide) (by decide) rfl).1

/-! ### The reversal loop -/

lemma length_filter_le_of_imp {α : Type} (p q : α → Bool)
    (himp : ∀ x, q x = true → p x = true) :
    ∀ l : List α, (l.filter q).length ≤ (l.filter p).length := by
  intro l
  induction l with
  | nil => simp
  | cons a tl ih =>
    cases hq : q a <;> cases hp : p a
    · simpa [List.filter_cons, hq, hp] using ih
    · simpa [List.filter_cons, hq, hp] using Nat.le_succ_of_le ih
    · exact absurd (himp a hq) (by simp [hp])
    · simpa [List.filter_cons, hq, hp] using Nat.succ_le_succ ih

lemma length_filter_lt_of_mem {α : Type} (p q : α → Bool) (a : α)
    (himp : ∀ x, q x = true → p x = true) :
    ∀ l : List α, a ∈ l → p a = true → q a = false →
      (l.filter q).length < (l.filter p).length := by
  intro l
  induction l with
  | nil => intro h _ _; simp at h
  | cons b tl ih =>
    intro hmem hpa hqa
    rcases List.mem_cons.mp hmem with rfl | hmem2
    · have hle := length_filter_le_of_imp p q himp tl
      simp [List.filter_cons, hpa, hqa]
      omega
    · have hlt := ih hmem2 hpa hqa
      cases hq : q b <;> cases hp : p b
      · simp [List.filter_cons, hq, hp]; omega
      · simp [List.filter_cons, hq, hp]; omega
      · exact absurd (himp b hq) (by simp [hp])
      · simp [List.filter_cons, hq, hp]; omega

lemma downLoop_trace_gt_one {σ : Type} (env : DownEnv σ) (ms : List Migration) :
    ∀ (fuel : Nat) (s : σ) (w : Int), w ∈ (downLoop env ms fuel s).2 → 1 < w := by
  intro fuel
  induction fuel with
  | zero => intro s w hw; simp [downLoop] at hw
  | succ n ih =>
    intro s w hw
    rcases hgv : env.getVer s with e | v
    · simp [downLoop, hgv] at hw
    · rcases hcur : Current ms v with _ | current
      · simp [downLoop, hgv, hcur] at hw
      · by_cases hle : current.Version ≤ 1
        · simp [downLoop, hgv, hcur, hle] at hw
        · rcases hdn : env.down current s with e | s2
          · simp [downLoop, hgv, hcur, hle, hdn] at hw
            omega
          · rcases hrec : downLoop env ms n s2 with ⟨r, tr⟩
            simp [downLoop, hgv, hcur, hle, hdn, hrec] at hw
            rcases hw with rfl | hw2
            · omega
            · exact ih s2 w (by rw [hrec]; exact hw2)

lemma downLoop_enough_fuel {σ : Type} (env : DownEnv σ) (ms : List Migration)
    (hdec : ∀ (m : Migration) (s s2 : σ) (v v2 : Int), env.down m s = .ok s2 →
      env.getVer s = .ok v → env.getVer s2 = .ok v2 → v2 < v) :
    ∀ (fuel : Nat) (s : σ), 0 < fuel →
      (∀ v, env.getVer s = .ok v → cntLe ms v < fuel) →
      (downLoop env ms fuel s).1 ≠ .fuelOut := by
  intro fuel
  induction fuel with
  | zero => intro s h0 _; exact absurd h0 (lt_irrefl 0)
  | succ n ih =>
    intro s _ hcnt
    rcases hgv : env.getVer s with e | v
    · simp [downLoop, hgv]
    · rcases hcur : Current ms v with _ | current
      · simp [downLoop, hgv, hcur]
      · by_cases hle : current.Version ≤ 1
        · simp [downLoop, hgv, hcur, hle]
        · rcases hdn : env.down current s with e | s2
          · simp [downLoop, hgv, hcur, hle, hdn]
          · rcases hrec : downLoop env ms n s2 with ⟨r, tr⟩
            have hmem : current ∈ ms := List.mem_of_find?_eq_some hcur
            have hver : current.Version = v := by
              have hfind := List.find?_some hcur
              simpa using hfind
            have hcv : cntLe ms v < n + 1 := hcnt v hgv
            have hcur_in : current ∈ ms.filter (fun m => decide (1 < m.Version ∧ m.Version ≤ v)) :=
              List.mem_filter.mpr ⟨hmem, by simp only [decide_eq_true_eq]; omega⟩
            have hpos : 0 < cntLe ms v := List.length_pos_of_mem hcur_in
            have hnext : ∀ v2, env.getVer s2 = .ok v2 → cntLe ms v2 < n := by
              intro v2 hgv2
              have hv2 : v2 < v := hdec current s s2 v v2 hdn hgv hgv2
              have hstrict : cntLe ms v2 < cntLe ms v := by
                apply length_filter_lt_of_mem _ _ current ?_ ms hmem ?_ ?_
                · intro x hx
                  simp only [decide_eq_true_eq] at hx ⊢
                  exact ⟨hx.1, le_trans hx.2 (le_of_lt hv2)⟩
                · simp only [decide_eq_true_eq]
                  omega
                · simp only [decide_eq_false_iff_not]
                  intro hx
                  omega
              omega
            have hr : r ≠ DownRes.fuelOut := by
              have hres := ih s2 (by omega) hnext
              rw [hrec] at hres
              exact hres
            simp [downLoop, hgv, hcur, hle, hdn, hrec]
            exact hr

/-- Claim C7: under the strict-decrease assumption — every successful
reverse action leaves the recorded version strictly below what it was —
the `DownAll` loop terminates: `registry.length + 1` iterations always
reach one of the loop's stopping conditions (success or a propagated
error), because every iteration that runs a reverse action reads a
version that belongs to the registry, exceeds the baseline, and strictly
decreases, and only `cntLe` many such versions exist. -/
theorem downAll_terminates {σ : Type} (reg : List Migration) (env : DownEnv σ)
    (hdec : ∀ (m : Migration) (s s2 : σ) (v v2 : Int), env.down m s = .ok s2 →
      env.getVer s = .ok v → env.getVer s2 = .ok v2 → v2 < v)
    (fuel : Nat) (s : σ) (hfuel : reg.length < fuel) :
    (DownAll reg env fuel s).1 ≠ DownRes.fuelOut := by
  apply downLoop_enough_fuel env (sortAndConnectMigrations reg) hdec fuel s (by omega)
  intro v _
  have h1 : cntLe (sortAndConnectMigrations reg) v ≤ (sortAndConnectMigrations reg).length :=
    List.length_filter_le _ _
  have h2 : (sortAndConnectMigrations reg).length = reg.length := by
    rw [sortAndConnectMigrations, connectAux_length]
    exact (List.perm_insertionSort byVersion reg).length_eq
  omega

/-- Concrete instance of C7: with reverse actions that decrement the
recorded version, fuel `4 > 3 = registry.length` completes the run. -/
theorem downAll_terminates_example :
    (DownAll reg3 intDownEnv 4 3).1 ≠ DownRes.fuelOut :=
  downAll_terminates reg3 intDownEnv
    (by
      intro m s s2 v v2 h1 h2 h3
      simp only [intDownEnv, Except.ok.injEq] at h1 h2 h3
      omega)
    4 3 (by decide)

/-- Claim C10: `DownAll` never invokes the reverse action of a migration
whose version is at most 1 — every version in the invocation trace
exceeds 1 (when the resolved record's version is at most 1 the loop
returns success without calling its `Down`). -/
theorem downAll_keeps_baseline {σ : Type} (reg : List Migration) (env : DownEnv σ)
    (fuel : Nat) (s : σ) (w : Int)
    (hw : w ∈ (DownAll reg env fuel s).2) : 1 < w :=
  downLoop_trace_gt_one env (sortAndConnectMigrations reg) fuel s w hw

/-- Concrete instance of C10: rolling a version-3 database all the way
back invokes versions 3 and 2, and the traced version 2 exceeds the
baseline. -/
theorem downAll_keeps_baseline_example :
    (2 : Int) ∈ (DownAll reg3 intDownEnv 10 3).2 ∧ (1 : Int) < 2 :=
  ⟨by decide, downAll_keeps_baseline reg3 intDownEnv 10 3 2 (by decide)⟩

end FnMigrations
